import Mathlib

/-!
Verification development for the `sink` repository (github.com/dwrtz/sink).

The repository selects files from a directory tree by layered pattern rules
(glob filter/exclude patterns plus gitignore rules), and watches the tree for
changes, debouncing bursts of events into single regeneration calls.

This file gives a shallow embedding of the relevant Go functions:

* `internal/filter/patterns.go` — `MatchesAny` (doublestar-based matcher), and
  the older `filter.MatchesAny` variant that accompanies
  `internal/generator/generator.go` in the source dump;
* `internal/filter/gitignore.go` — `PathParts`, `NewFilter` and the gitignore
  rule evaluation (the go-git matcher itself is an external dependency and is
  modelled from the spec);
* `internal/processor` (`files.go` and the current processor in the dump) —
  `shouldProcessFile`, `processFile`, `Process`;
* `internal/watcher/service.go` — `shouldWatchDirectory`, `addWatchRecursive`,
  `reconfigureWatcher`, `handleRemove`, `handleConfigChange`, `handleEvent`,
  `triggerRegeneration`, `isTemporaryFile`.

External collaborators (the filesystem, go-git's gitignore matcher, the
doublestar glob library, `utils.IsBinaryFile`) are modelled explicitly; each
such model carries a doc comment saying what it models.
-/

namespace Sink

/-! ## Character/string helpers (models of Go standard library functions) -/

/-- Model of Go `strings.ToLower` restricted to ASCII (the patterns and paths
exercised here are ASCII; `Char.toLower` lowercases ASCII letters). -/
def goToLower (s : String) : String :=
  String.mk (s.toList.map Char.toLower)

/-- Model of Go `filepath.ToSlash` on Unix: the separator already is `/`, so
the function is the identity on the characters of the string. -/
def toSlash (s : String) : String :=
  String.mk (s.toList.map (fun c => if c = '/' then '/' else c))

/-- Drop trailing `/` characters (used by `filepath.Base`). -/
def dropTrailingSlashes (l : List Char) : List Char :=
  (l.reverse.dropWhile (· = '/')).reverse

/-- The maximal suffix containing no `/` (the `file` part of `filepath.Split`). -/
def lastSegChars (l : List Char) : List Char :=
  (l.reverse.takeWhile (· ≠ '/')).reverse

/-- The complementary prefix, up to and including the final `/` (the `dir`
part of `filepath.Split`). -/
def dirChars (l : List Char) : List Char :=
  (l.reverse.dropWhile (· ≠ '/')).reverse

/-- Model of Go `filepath.Base` (Unix): empty path gives `"."`; trailing
separators are removed; the last element is returned; an all-separator path
gives `"/"`. -/
def filepathBase (s : String) : String :=
  let l := s.toList
  if l = [] then "."
  else
    let l := dropTrailingSlashes l
    if l = [] then "/"
    else String.mk (lastSegChars l)

/-! ## Glob matching

`MatchesAny` in `internal/filter/patterns.go` delegates single-pattern
matching to the external `doublestar` library.  `doublestarMatch` models it
from the spec (§4.1): a pattern is split on `/`; a `**` segment matches zero
or more whole path segments; within a segment `*` matches any run of
characters, `?` matches one character, and other characters match literally.
The legacy matcher uses Go `path/filepath.Match`, where `*`/`?` never cross a
separator and there is no `**`; `goFilepathMatch` models that. -/

/-- All suffixes of a list, longest first (the list itself included). -/
def suffixes : List α → List (List α)
  | [] => [[]]
  | a :: l => (a :: l) :: suffixes l

/-- Single-segment glob matching (`*`, `?`, literals): `*` matches any run of
characters within the segment. -/
def matchChars : List Char → List Char → Bool
  | [], cs => cs.isEmpty
  | '*' :: ps, cs => (suffixes cs).any fun suf => matchChars ps suf
  | '?' :: ps, cs =>
    match cs with
    | [] => false
    | _ :: cs' => matchChars ps cs'
  | p :: ps, cs =>
    match cs with
    | [] => false
    | c :: cs' => p = c && matchChars ps cs'

/-- Split a character list at `/` (keeping empty pieces). -/
def splitSlash : List Char → List (List Char)
  | [] => [[]]
  | c :: l =>
    if c = '/' then [] :: splitSlash l
    else
      match splitSlash l with
      | [] => [[c]]
      | s :: rest => (c :: s) :: rest

/-- Segment-list matching with `**` matching zero or more whole segments
(doublestar semantics). -/
def matchSegs : List (List Char) → List (List Char) → Bool
  | [], ss => ss.isEmpty
  | p :: ps, ss =>
    if p = ['*', '*'] then (suffixes ss).any fun suf => matchSegs ps suf
    else
      match ss with
      | [] => false
      | s :: ss' => matchChars p s && matchSegs ps ss'

/-- Modelled from the spec: the external `doublestar.Match` glob evaluation
("recursive-wildcard segment matches zero or more whole path segments",
§4.1).  Character classes and brace alternatives of the library are not used
by this repository's patterns and are not modelled; malformed-pattern errors
("treated as no match", §4.1) do not arise in the modelled subset. -/
def doublestarMatch (pattern path : String) : Bool :=
  matchSegs (splitSlash pattern.toList) (splitSlash path.toList)

/-- Modelled from the spec / Go standard library: `path/filepath.Match`,
where wildcards never cross a separator.  Both sides are split on `/` and the
segments must match pairwise. -/
def goFilepathMatch (pattern path : String) : Bool :=
  let ps := splitSlash pattern.toList
  let ss := splitSlash path.toList
  ps.length = ss.length && (List.zip ps ss).all fun (p, s) => matchChars p s

/-- The single-pattern check performed inside `MatchesAny`'s loop
(`internal/filter/patterns.go` lines 25-41), with the path normalisation of
lines 17-23 applied: normalise separators, lowercase both sides unless
case-sensitive, and match against the basename when the pattern has no `/`. -/
def matchOne (path pattern : String) (caseSensitive : Bool) : Bool :=
  let path := toSlash path
  let path := if !caseSensitive then goToLower path else path
  let basename := filepathBase path
  let pattern := if !caseSensitive then goToLower pattern else pattern
  let pattern := toSlash pattern
  let matchPath := if !(pattern.toList.contains '/') then basename else path
  doublestarMatch pattern matchPath

/-- Embedding of `MatchesAny` from `internal/filter/patterns.go`: an empty
pattern list returns `true` ("No patterns means match everything"), otherwise
the path matches if any pattern matches (loop with early return). -/
def MatchesAny (path : String) (patterns : List String) (caseSensitive : Bool) : Bool :=
  if patterns.length = 0 then true
  else patterns.any fun pattern => matchOne path pattern caseSensitive

/-- Embedding of the older `filter.MatchesAny` variant that accompanies
`internal/generator/generator.go` in the source dump (lines 102-116): no
basename special case, `filepath.Match` against the full path, and the loop
over an empty pattern list simply returns `false`. -/
def legacyMatchesAny (path : String) (patterns : List String) (caseSensitive : Bool) : Bool :=
  let path := if !caseSensitive then goToLower path else path
  patterns.any fun pattern =>
    let pattern := if !caseSensitive then goToLower pattern else pattern
    goFilepathMatch pattern path

/-! ## Path splitting (`PathParts`, `internal/filter/gitignore.go` lines
25-52)

`PathParts` first calls `filepath.Clean` and then repeatedly strips the last
path element with `filepath.Split` / `strings.TrimSuffix`, finally reversing
the collected elements.  `filepath.Clean` is Go standard library; it is
modelled by its segment-level lexical specification. -/

/-- Model of Go `strings.TrimSuffix(dir, "/")`: drop one trailing `/` if
present. -/
def trimSuffixSlash (l : List Char) : List Char :=
  if l.getLast? = some '/' then l.dropLast else l

/-- Join segment lists with `/` (inverse of `splitSlash`). -/
def joinSlash : List (List Char) → List Char
  | [] => []
  | [s] => s
  | s :: rest => s ++ '/' :: joinSlash rest

/-- Modelled from the Go standard library: the lexical segment resolution of
`filepath.Clean` (Unix) — drop empty and `.` segments; on `..` pop the last
output segment unless the output is empty or already ends in `..`, dropping
the `..` instead when the path is rooted and keeping it when relative. -/
def cleanSegsAux (rooted : Bool) : List (List Char) → List (List Char) → List (List Char)
  | acc, [] => acc
  | acc, s :: rest =>
    if s = [] ∨ s = ['.'] then cleanSegsAux rooted acc rest
    else if s = ['.', '.'] then
      if acc ≠ [] ∧ acc.getLast? ≠ some ['.', '.'] then
        cleanSegsAux rooted acc.dropLast rest
      else if rooted then cleanSegsAux rooted acc rest
      else cleanSegsAux rooted (acc ++ [s]) rest
    else cleanSegsAux rooted (acc ++ [s]) rest

/-- Modelled from the Go standard library: `filepath.Clean` (Unix) — the
empty path cleans to `.`; otherwise resolve the segments lexically, keeping
the rooted prefix, with `/` for an emptied rooted path and `.` for an
emptied relative one. -/
def clean (p : String) : String :=
  let l := p.toList
  if l = [] then "."
  else
    let rooted := l.head? == some '/'
    let segs := cleanSegsAux rooted [] (splitSlash l)
    if segs = [] then (if rooted then "/" else ".")
    else String.mk ((if rooted then ['/'] else []) ++ joinSlash segs)

/-- `filepath.Split` decomposes a path into directory part and final
element. -/
theorem dirChars_append_lastSegChars (p : List Char) :
    dirChars p ++ lastSegChars p = p := by
  unfold dirChars lastSegChars
  rw [← List.reverse_append, List.takeWhile_append_dropWhile, List.reverse_reverse]

theorem length_trimSuffixSlash_le (l : List Char) :
    (trimSuffixSlash l).length ≤ l.length := by
  unfold trimSuffixSlash
  split
  · simp [List.length_dropLast]
  · exact le_refl _

theorem trimSuffixSlash_length_lt (l : List Char) (h : l.getLast? = some '/') :
    (trimSuffixSlash l).length < l.length := by
  have hne : l ≠ [] := by
    intro h0
    rw [h0] at h
    cases h
  have hpos : 0 < l.length := List.length_pos.mpr hne
  unfold trimSuffixSlash
  rw [if_pos h]
  have hdl := List.length_dropLast l
  omega

/-- A path whose final element is empty ends in the separator. -/
theorem lastSegChars_eq_nil (p : List Char) (hp : p ≠ []) (h : lastSegChars p = []) :
    p.getLast? = some '/' := by
  have h' : p.reverse.takeWhile (fun c => decide (c ≠ '/')) = [] := by
    have := congrArg List.reverse h
    simpa [lastSegChars] using this
  cases hr : p.reverse with
  | nil =>
    exfalso
    apply hp
    have := congrArg List.reverse hr
    simpa using this
  | cons c cs =>
    rw [hr] at h'
    by_cases hc : c = '/'
    · rw [← List.head?_reverse, hr]
      simp [hc]
    · rw [List.takeWhile_cons] at h'
      simp [hc] at h'

theorem dirChars_length_lt (p : List Char) (h : lastSegChars p ≠ []) :
    (dirChars p).length < p.length := by
  have happ := congrArg List.length (dirChars_append_lastSegChars p)
  rw [List.length_append] at happ
  have hpos : 0 < (lastSegChars p).length := List.length_pos.mpr h
  omega

theorem partsLoop_dec (p : List Char) (hp : p ≠ []) :
    (trimSuffixSlash (dirChars p)).length < p.length := by
  by_cases h : lastSegChars p = []
  · have hdir : dirChars p = p := by
      have happ := dirChars_append_lastSegChars p
      rwa [h, List.append_nil] at happ
    rw [hdir]
    exact trimSuffixSlash_length_lt p (lastSegChars_eq_nil p hp h)
  · exact lt_of_le_of_lt (length_trimSuffixSlash_le _) (dirChars_length_lt p h)

/-- Embedding of the loop of `PathParts` (gitignore.go lines 33-45): while
the path is neither empty nor the bare separator, split off the final
element (`filepath.Split`); an empty final element (trailing separator) only
strips the separator, otherwise the element is collected; either way the
loop continues on the directory part with its trailing separator trimmed. -/
def partsLoop (p : List Char) (parts : List (List Char)) : List (List Char) :=
  if hstop : p = [] ∨ p = ['/'] then parts
  else
    if lastSegChars p = [] then partsLoop (trimSuffixSlash (dirChars p)) parts
    else partsLoop (trimSuffixSlash (dirChars p)) (parts ++ [lastSegChars p])
termination_by p.length
decreasing_by
  all_goals exact partsLoop_dec p fun h0 => hstop (Or.inl h0)

/-- Embedding of `PathParts` (gitignore.go lines 25-52): clean the path,
return no components for `.`, otherwise run the stripping loop and reverse
the collected components. -/
def PathParts (p : String) : List String :=
  let q := clean p
  if q = "." then []
  else ((partsLoop q.toList []).reverse).map fun l => String.mk l

/-- The specification-side reading of "the ordered segments of
`filepath.Clean(p)`": no components for `.`, otherwise the nonempty pieces
of the cleaned path split at `/`. -/
def cleanSegments (p : String) : List String :=
  let q := clean p
  if q = "." then []
  else ((splitSlash q.toList).filter fun s => !s.isEmpty).map fun l => String.mk l

/-- Joining segments with the separator (the round-trip direction of the
claim). -/
def joinParts (parts : List String) : String :=
  String.mk (joinSlash (parts.map String.toList))

theorem splitSlash_ne_nil (l : List Char) : splitSlash l ≠ [] := by
  cases l with
  | nil => simp [splitSlash]
  | cons c t =>
    simp only [splitSlash]
    by_cases hc : c = '/'
    · simp [hc]
    · rw [if_neg hc]
      cases h : splitSlash t <;> simp

theorem splitSlash_exists_cons (l : List Char) :
    ∃ s rest, splitSlash l = s :: rest := by
  cases h : splitSlash l with
  | nil => exact absurd h (splitSlash_ne_nil l)
  | cons s rest => exact ⟨s, rest, rfl⟩

theorem splitSlash_append_sep (a b : List Char) :
    splitSlash (a ++ '/' :: b) = splitSlash a ++ splitSlash b := by
  induction a with
  | nil => simp [splitSlash]
  | cons c a ih =>
    by_cases hc : c = '/'
    · simp [splitSlash, hc, ih]
    · obtain ⟨s, rest, h⟩ := splitSlash_exists_cons a
      simp only [List.cons_append, splitSlash, if_neg hc, List.append_eq]
      rw [ih, h]
      rfl

theorem splitSlash_of_not_mem (l : List Char) (h : '/' ∉ l) : splitSlash l = [l] := by
  induction l with
  | nil => rfl
  | cons c t ih =>
    have hc : ¬ c = '/' := fun e => h (e ▸ List.mem_cons_self c t)
    have ht : '/' ∉ t := fun m => h (List.mem_cons_of_mem c m)
    simp only [splitSlash, if_neg hc, ih ht]

theorem not_mem_of_mem_splitSlash (l : List Char) (s : List Char)
    (hs : s ∈ splitSlash l) : '/' ∉ s := by
  induction l generalizing s with
  | nil =>
    simp only [splitSlash, List.mem_singleton] at hs
    simp [hs]
  | cons c t ih =>
    by_cases hc : c = '/'
    · rw [splitSlash, if_pos hc] at hs
      rcases List.mem_cons.mp hs with rfl | hmem
      · simp
      · exact ih s hmem
    · obtain ⟨s0, rest, h⟩ := splitSlash_exists_cons t
      rw [splitSlash, if_neg hc, h] at hs
      rcases List.mem_cons.mp hs with rfl | hmem
      · intro hin
        rcases List.mem_cons.mp hin with he | hin0
        · exact hc he.symm
        · exact (ih s0 (by rw [h]; exact List.mem_cons_self _ _)) hin0
      · exact ih s (by rw [h]; exact List.mem_cons_of_mem _ hmem)

theorem joinSlash_splitSlash (l : List Char) : joinSlash (splitSlash l) = l := by
  induction l with
  | nil => rfl
  | cons c t ih =>
    obtain ⟨s0, rest, h⟩ := splitSlash_exists_cons t
    by_cases hc : c = '/'
    · rw [splitSlash, if_pos hc, h]
      show ([] : List Char) ++ '/' :: joinSlash (s0 :: rest) = c :: t
      rw [← h, ih, hc]
      rfl
    · rw [splitSlash, if_neg hc, h]
      cases rest with
      | nil =>
        have hx : joinSlash (splitSlash t) = t := ih
        rw [h] at hx
        show c :: s0 = c :: t
        rw [show joinSlash [s0] = s0 from rfl] at hx
        rw [hx]
      | cons s1 rest1 =>
        have hx : joinSlash (splitSlash t) = t := ih
        rw [h] at hx
        show (c :: s0) ++ '/' :: joinSlash (s1 :: rest1) = c :: t
        rw [List.cons_append]
        rw [show s0 ++ '/' :: joinSlash (s1 :: rest1) = joinSlash (s0 :: s1 :: rest1) from rfl,
          hx]

theorem splitSlash_joinSlash (pieces : List (List Char)) (hne : pieces ≠ [])
    (hns : ∀ s ∈ pieces, '/' ∉ s) : splitSlash (joinSlash pieces) = pieces := by
  induction pieces with
  | nil => exact absurd rfl hne
  | cons s rest ih =>
    cases rest with
    | nil =>
      show splitSlash (joinSlash [s]) = [s]
      rw [show joinSlash [s] = s from rfl]
      exact splitSlash_of_not_mem s (hns s (List.mem_cons_self _ _))
    | cons s1 rest1 =>
      show splitSlash (s ++ '/' :: joinSlash (s1 :: rest1)) = s :: s1 :: rest1
      rw [splitSlash_append_sep, splitSlash_of_not_mem s (hns s (List.mem_cons_self _ _)),
        ih (by simp) fun x hx => hns x (List.mem_cons_of_mem _ hx)]
      rfl

theorem not_slash_mem_lastSegChars (p : List Char) : '/' ∉ lastSegChars p := by
  intro h
  have h' : '/' ∈ p.reverse.takeWhile (fun c => decide (c ≠ '/')) := by
    simpa [lastSegChars] using h
  have := List.mem_takeWhile_imp h'
  simp at this

theorem head?_dropWhile_false (q : Char → Bool) (l : List Char) :
    ∀ a, (l.dropWhile q).head? = some a → q a = false := by
  induction l with
  | nil => intro a h; cases h
  | cons c t ih =>
    intro a h
    by_cases hc : q c = true
    · rw [List.dropWhile_cons_of_pos hc] at h
      exact ih a h
    · rw [List.dropWhile_cons_of_neg hc] at h
      cases h
      exact Bool.eq_false_iff.mpr hc

theorem dirChars_getLast (p : List Char) (hd : dirChars p ≠ []) :
    (dirChars p).getLast? = some '/' := by
  unfold dirChars at hd ⊢
  rw [List.getLast?_reverse]
  cases hh : (p.reverse.dropWhile fun c => decide (c ≠ '/')).head? with
  | none =>
    exfalso
    apply hd
    simp only [List.head?_eq_none_iff] at hh
    rw [hh]
    rfl
  | some a =>
    have := head?_dropWhile_false _ _ a hh
    simp only [decide_eq_false_iff_not, Decidable.not_not] at this
    rw [this]

theorem eq_dropLast_append_slash (l : List Char) (h : l.getLast? = some '/') :
    l = l.dropLast ++ ['/'] := by
  have hne : l ≠ [] := by
    intro h0
    rw [h0] at h
    cases h
  have h2 := List.dropLast_append_getLast hne
  have h3 : l.getLast hne = '/' := by
    rw [List.getLast?_eq_getLast l hne] at h
    exact Option.some.inj h
  rw [h3] at h2
  exact h2.symm

/-- The stripping loop of `PathParts` collects, in reverse order, exactly
the nonempty pieces of the path split at `/`. -/
theorem partsLoop_eq (p : List Char) (parts : List (List Char)) :
    partsLoop p parts
      = parts ++ ((splitSlash p).filter fun s => !s.isEmpty).reverse := by
  generalize hn : p.length = n
  induction n using Nat.strong_induction_on generalizing p parts with
  | _ n ih =>
    by_cases hstop : p = [] ∨ p = ['/']
    · rcases hstop with h | h
      · subst h
        rw [partsLoop]
        simp [splitSlash]
      · subst h
        rw [partsLoop]
        simp [splitSlash]
    · have hp : p ≠ [] := fun h => hstop (Or.inl h)
      by_cases hseg : lastSegChars p = []
      · have hlast : p.getLast? = some '/' := lastSegChars_eq_nil p hp hseg
        have hdir : dirChars p = p := by
          have happ := dirChars_append_lastSegChars p
          rwa [hseg, List.append_nil] at happ
        have htrim : trimSuffixSlash (dirChars p) = p.dropLast := by
          rw [hdir]
          unfold trimSuffixSlash
          rw [if_pos hlast]
        have hlen : p.dropLast.length < n := by
          rw [← hn]
          have h1 := List.length_dropLast p
          have h2 := List.length_pos.mpr hp
          omega
        rw [partsLoop, dif_neg hstop, if_pos hseg, htrim, ih _ hlen p.dropLast parts rfl]
        conv_rhs => rw [eq_dropLast_append_slash p hlast]
        rw [show (['/'] : List Char) = '/' :: [] from rfl, splitSlash_append_sep]
        simp [splitSlash]
      · by_cases hd : dirChars p = []
        · have hple : p = lastSegChars p := by
            have happ := dirChars_append_lastSegChars p
            rw [hd, List.nil_append] at happ
            exact happ.symm
          have hnos : '/' ∉ p := by
            rw [hple]
            exact not_slash_mem_lastSegChars p
          have htrim0 : trimSuffixSlash (dirChars p) = [] := by
            rw [hd]
            rfl
          rw [partsLoop, dif_neg hstop, if_neg hseg, htrim0, partsLoop, dif_pos (Or.inl rfl),
            splitSlash_of_not_mem p hnos]
          have hpe : p.isEmpty = false := by
            cases p with
            | nil => exact absurd rfl hp
            | cons a l => rfl
          simp [List.filter_cons, hpe, ← hple]
        · have hdlast : (dirChars p).getLast? = some '/' := dirChars_getLast p hd
          have htrim : trimSuffixSlash (dirChars p) = (dirChars p).dropLast := by
            unfold trimSuffixSlash
            rw [if_pos hdlast]
          have hp2 : p = (dirChars p).dropLast ++ '/' :: lastSegChars p := by
            conv_lhs => rw [← dirChars_append_lastSegChars p]
            conv_lhs => rw [eq_dropLast_append_slash (dirChars p) hdlast]
            simp
          have hlen : (dirChars p).dropLast.length < n := by
            rw [← hn]
            have h1 := List.length_dropLast (dirChars p)
            have h2 := dirChars_length_lt p hseg
            omega
          rw [partsLoop, dif_neg hstop, if_neg hseg, htrim,
            ih _ hlen (dirChars p).dropLast (parts ++ [lastSegChars p]) rfl]
          conv_rhs => rw [hp2]
          rw [splitSlash_append_sep,
            splitSlash_of_not_mem (lastSegChars p) (not_slash_mem_lastSegChars p)]
          have hpe : (lastSegChars p).isEmpty = false := by
            cases hls : lastSegChars p with
            | nil => exact absurd hls hseg
            | cons a l => rfl
          simp [List.filter_append, List.filter_cons, hpe]

/-- `PathParts` computes exactly the specification-side segment list. -/
theorem PathParts_eq_cleanSegments (p : String) :
    PathParts p = cleanSegments p := by
  by_cases h : clean p = "."
  · simp [PathParts, cleanSegments, h]
  · simp [PathParts, cleanSegments, h, partsLoop_eq]

theorem PathParts_segments (p : String) :
    ∀ s ∈ PathParts p, s ≠ "" ∧ '/' ∉ s.toList := by
  intro s hs
  rw [PathParts_eq_cleanSegments] at hs
  by_cases h : clean p = "."
  · simp [cleanSegments, h] at hs
  · rw [show cleanSegments p
        = ((splitSlash (clean p).toList).filter fun s => !s.isEmpty).map
            (fun l => String.mk l) from by simp [cleanSegments, h]] at hs
    obtain ⟨l, hmem0, rfl⟩ := List.mem_map.mp hs
    obtain ⟨hmem, hne⟩ := List.mem_filter.mp hmem0
    constructor
    · intro h0
      have h1 : l = [] := congrArg String.toList h0
      rw [h1] at hne
      cases hne
    · exact not_mem_of_mem_splitSlash _ l hmem

theorem PathParts_dot : PathParts "." = [] := by decide

theorem PathParts_slash : PathParts "/" = [] := by
  rw [PathParts_eq_cleanSegments]
  decide

/-- The segments produced by the `Clean` resolution are nonempty and contain
no separator, provided the input pieces contain none. -/
theorem cleanSegsAux_wf (rooted : Bool) (l : List (List Char)) :
    ∀ acc, (∀ s ∈ acc, s ≠ [] ∧ '/' ∉ s) → (∀ s ∈ l, '/' ∉ s) →
      ∀ s ∈ cleanSegsAux rooted acc l, s ≠ [] ∧ '/' ∉ s := by
  induction l with
  | nil =>
    intro acc hacc _ s hs
    exact hacc s hs
  | cons x rest ih =>
    intro acc hacc hl s hs
    have hlrest : ∀ s ∈ rest, '/' ∉ s := fun s hs => hl s (List.mem_cons_of_mem _ hs)
    by_cases h1 : x = [] ∨ x = ['.']
    · rw [cleanSegsAux, if_pos h1] at hs
      exact ih acc hacc hlrest s hs
    · by_cases h2 : x = ['.', '.']
      · rw [cleanSegsAux, if_neg h1, if_pos h2] at hs
        by_cases h3 : acc ≠ [] ∧ acc.getLast? ≠ some ['.', '.']
        · rw [if_pos h3] at hs
          exact ih acc.dropLast
            (fun s hs0 => hacc s ((List.dropLast_sublist acc).subset hs0)) hlrest s hs
        · rw [if_neg h3] at hs
          cases rooted with
          | true =>
            rw [if_pos rfl] at hs
            exact ih acc hacc hlrest s hs
          | false =>
            rw [if_neg (by simp)] at hs
            refine ih (acc ++ [x]) ?_ hlrest s hs
            intro s0 hs0
            rcases List.mem_append.mp hs0 with h | h
            · exact hacc s0 h
            · rw [List.mem_singleton.mp h, h2]
              exact ⟨by simp, by decide⟩
      · rw [cleanSegsAux, if_neg h1, if_neg h2] at hs
        refine ih (acc ++ [x]) ?_ hlrest s hs
        intro s0 hs0
        rcases List.mem_append.mp hs0 with h | h
        · exact hacc s0 h
        · rw [List.mem_singleton.mp h]
          exact ⟨fun h0 => h1 (Or.inl h0), hl x (List.mem_cons_self _ _)⟩

theorem clean_of_not_rooted (p : String) (hl : p.toList ≠ [])
    (hroot : (p.toList.head? == some '/') = false) :
    clean p = (if cleanSegsAux false [] (splitSlash p.toList) = [] then "."
      else String.mk (joinSlash (cleanSegsAux false [] (splitSlash p.toList)))) := by
  unfold clean
  rw [if_neg hl, hroot]
  simp

/-- A clean relative path other than `.` is the separator-join of its
resolved segments, and has at least one segment. -/
theorem clean_eq_structure (p : String) (hclean : clean p = p)
    (hrel : p.toList.head? ≠ some '/') (hdot : p ≠ ".") :
    p.toList = joinSlash (cleanSegsAux false [] (splitSlash p.toList))
      ∧ cleanSegsAux false [] (splitSlash p.toList) ≠ [] := by
  have hl : p.toList ≠ [] := by
    intro h0
    have hp0 : p = "" := by
      cases p with
      | mk data =>
        have : data = [] := h0
        rw [this]
    rw [hp0] at hclean
    exact absurd hclean.symm (by decide)
  have hrooted : (p.toList.head? == some '/') = false := by
    cases hh : p.toList.head? with
    | none => rfl
    | some c =>
      by_cases hc : c = '/'
      · exact absurd (by rw [hh, hc]) hrel
      · simp [hc]
  have hc := clean_of_not_rooted p hl hrooted
  rw [hclean] at hc
  by_cases hsegs : cleanSegsAux false [] (splitSlash p.toList) = []
  · rw [if_pos hsegs] at hc
    exact absurd hc hdot
  · rw [if_neg hsegs] at hc
    exact ⟨congrArg String.toList hc, hsegs⟩

/-- Round trip: joining the parts of a clean relative path other than `.`
with the separator reproduces the path. -/
theorem pathParts_roundtrip (p : String) (hclean : clean p = p)
    (hrel : p.toList.head? ≠ some '/') (hdot : p ≠ ".") :
    joinParts (PathParts p) = p := by
  obtain ⟨hjoin, hsegs⟩ := clean_eq_structure p hclean hrel hdot
  have hwf : ∀ s ∈ cleanSegsAux false [] (splitSlash p.toList), s ≠ [] ∧ '/' ∉ s :=
    cleanSegsAux_wf false (splitSlash p.toList) [] (fun s hs => absurd hs (by simp))
      (fun s hs => not_mem_of_mem_splitSlash _ s hs)
  have hsplit : splitSlash p.toList = cleanSegsAux false [] (splitSlash p.toList) := by
    conv_lhs => rw [hjoin]
    exact splitSlash_joinSlash _ hsegs fun s hs => (hwf s hs).2
  rw [PathParts_eq_cleanSegments]
  simp only [cleanSegments, hclean, if_neg hdot]
  rw [hsplit]
  have hfilter : (cleanSegsAux false [] (splitSlash p.toList)).filter (fun s => !s.isEmpty)
      = cleanSegsAux false [] (splitSlash p.toList) := by
    apply List.filter_eq_self.mpr
    intro s hs
    have := (hwf s hs).1
    cases s with
    | nil => exact absurd rfl this
    | cons a t => rfl
  rw [hfilter]
  unfold joinParts
  rw [List.map_map]
  have hmapid : (cleanSegsAux false [] (splitSlash p.toList)).map (String.toList ∘ String.mk)
      = cleanSegsAux false [] (splitSlash p.toList) := by
    calc (cleanSegsAux false [] (splitSlash p.toList)).map (String.toList ∘ String.mk)
        = (cleanSegsAux false [] (splitSlash p.toList)).map id :=
          List.map_congr_left fun s _ => rfl
      _ = _ := List.map_id _
  rw [hmapid, ← hjoin]
  cases p with
  | mk data => rfl

/-! ## Gitignore rules (`internal/filter/gitignore.go`)

`NewFilter` builds its pattern list from go-git's gitignore package, which is
an external dependency; the rule representation and its evaluation are
modelled from the spec (§4.2), while the *order* in which `NewFilter`
concatenates the local, global and system lists is embedded from the source
(lines 55-85). -/

/-- Modelled from the spec: one compiled ignore rule — "a trailing `/`
restricts the pattern to directories; a leading `!` negates (re-includes) a
path" (§4.2 / §6). -/
structure IgnoreRule where
  negated : Bool
  dirOnly : Bool
  segs : List String
deriving DecidableEq

/-- Modelled from the spec: parsing one line of a rule file — "one pattern
per line; blank lines and lines starting with `#` ignored; a trailing `/`
restricts the pattern to directories; a leading `!` negates" (§4.2). -/
def parseIgnoreLine (line : String) : Option IgnoreRule :=
  let l := line.toList
  if l = [] ∨ l.head? = some '#' then none
  else
    let (negated, l) := match l with
      | '!' :: rest => (true, rest)
      | _ => (false, l)
    let (dirOnly, l) :=
      if l.getLast? = some '/' then (true, l.dropLast) else (false, l)
    some ⟨negated, dirOnly, (splitSlash l).map fun s => String.mk s⟩

/-- Modelled from the spec: whether a rule's pattern matches a segment list.
A single-segment pattern matches the path's components at any depth; a
multi-segment pattern is anchored at the root, with `**` matching zero or
more whole segments (gitignore semantics as described in §4.2 and §6). -/
def ruleCoreMatch (r : IgnoreRule) (pathSegs : List String) : Bool :=
  match r.segs with
  | [p] => pathSegs.any fun s => matchChars p.toList s.toList
  | ps => matchSegs (ps.map String.toList) (pathSegs.map String.toList)

/-- Modelled from the spec: a rule matches a path if it matches any leading
prefix of the path's segments (a rule matching a directory also covers
everything below it); "directory-only rules are skipped when `isDirectory` is
false" (§4.2) — a strict prefix of the path is always a directory. -/
def ruleMatch (r : IgnoreRule) (pathSegs : List String) (isDir : Bool) : Bool :=
  (List.range pathSegs.length).any fun i =>
    ruleCoreMatch r (pathSegs.take (i + 1)) &&
      (!r.dirOnly || decide (i + 1 < pathSegs.length) || isDir)

/-- Modelled from the spec: "the last rule that matches wins (standard
last-match-wins ignore-file semantics)" (§4.2) — go-git's matcher scans the
compiled rule list from the last rule to the first and returns the polarity
of the first decisive rule it finds. -/
def matchDecisive (rules : List IgnoreRule) (pathSegs : List String) (isDir : Bool) :
    Option Bool :=
  (rules.reverse.find? fun r => ruleMatch r pathSegs isDir).map fun r => !r.negated

/-- The ignore verdict for a compiled rule list: the polarity of the last
matching rule, or `false` when no rule matches. -/
def isIgnoredBy (rules : List IgnoreRule) (pathSegs : List String) (isDir : Bool) : Bool :=
  (matchDecisive rules pathSegs isDir).getD false

/-- Embedding of the pattern-list construction of `NewFilter`
(`internal/filter/gitignore.go` lines 55-85): start from the local rules read
at the repository root, then — when the flags are set — append the
user-global rules and then the OS-system rules. -/
def NewFilterPatterns (loadGlobal loadSystem : Bool)
    (localRules globalRules systemRules : List IgnoreRule) : List IgnoreRule :=
  let ps := localRules
  let ps := if loadGlobal then ps ++ globalRules else ps
  let ps := if loadSystem then ps ++ systemRules else ps
  ps

/-! ## The traverser's file-acceptance predicate

`shouldProcessFile` of the current processor (`part_005` lines 265-302).  The
filesystem-dependent collaborators are passed as oracles: `isBinary` is the
result of `utils.IsBinaryFile(path)` (the `utils` package is not in the
dump), `rel` is the result of `filepath.Rel(fs.Root(), path)` (`none` for an
error), and `isIgnored` is `fp.ignorer.IsIgnored` (`none` for an error, as
its `Stat` call can fail). -/

structure ProcConfig where
  filterPatterns : List String
  excludePatterns : List String
  caseSensitive : Bool

/-- Embedding of `shouldProcessFile` (`part_005` lines 265-302): reject
binary files, then relative-path errors, then ignore errors and ignored
paths; with no filter patterns only exclude patterns matter; otherwise the
file must match a filter pattern and must not match an exclude pattern. -/
def shouldProcessFile (cfg : ProcConfig) (isBinary : Bool) (rel : Option String)
    (isIgnored : String → Option Bool) : Bool :=
  if isBinary then false
  else
    match rel with
    | none => false
    | some relPath =>
      match isIgnored relPath with
      | none => false
      | some true => false
      | some false =>
        if cfg.filterPatterns.length = 0 then
          if cfg.excludePatterns.length > 0 then
            !MatchesAny relPath cfg.excludePatterns cfg.caseSensitive
          else true
        else
          if !MatchesAny relPath cfg.filterPatterns cfg.caseSensitive then false
          else
            if cfg.excludePatterns.length > 0 then
              !MatchesAny relPath cfg.excludePatterns cfg.caseSensitive
            else true

/-- On a nonempty pattern list, `MatchesAny` is exactly "some pattern
matches". -/
theorem MatchesAny_eq_any (path : String) (patterns : List String)
    (caseSensitive : Bool) (h : patterns ≠ []) :
    MatchesAny path patterns caseSensitive
      = patterns.any fun pattern => matchOne path pattern caseSensitive := by
  simp [MatchesAny, List.length_eq_zero, h]

/-- Negating "some element matches" gives "every element fails". -/
theorem not_any_eq_all_not (l : List α) (p : α → Bool) :
    (!l.any p) = l.all fun a => !p a := by
  induction l with
  | nil => rfl
  | cons a l ih => simp [List.any_cons, List.all_cons, ← ih]

/-! ## Debounced regeneration (`triggerRegeneration`, service.go lines 376-402)

The timer semantics are modelled in discrete time.  The state holds the
pending fire time of the single shared `time.Timer` (`none` when it is not
armed) and the number of `Generate` invocations so far.  Each call to
`triggerRegeneration` stops the timer — draining it if it has already fired —
and resets it to `now + timeout`; each timer expiry wakes exactly one of the
goroutines blocked on the timer channel, which calls `Generate` once.  The
initial `time.NewTimer(0)` fire is drained by the first trigger before any
goroutine waits, so the initial state is an unarmed timer with zero
invocations. -/

structure DebounceState where
  fireAt : Option Nat
  gens : Nat
deriving DecidableEq

/-- If the timer was armed and its fire time has passed by time `t`, it has
fired: one waiting goroutine consumed the tick and invoked `Generate`. -/
def fireCheck (s : DebounceState) (t : Nat) : DebounceState :=
  match s.fireAt with
  | some f => if f ≤ t then ⟨none, s.gens + 1⟩ else s
  | none => s

/-- Embedding of `triggerRegeneration` at time `t`: stop the timer (the
already-fired case is the drained/consumed tick accounted by `fireCheck`),
then reset it to `t + timeout`.  The goroutine spawned to wait on the channel
is accounted for by the later fire. -/
def triggerRegeneration (timeout : Nat) (s : DebounceState) (t : Nat) : DebounceState :=
  let s := fireCheck s t
  ⟨some (t + timeout), s.gens⟩

/-- Deliver a sequence of qualifying events: the first at time `t`, each
subsequent one after the corresponding gap. -/
def runGaps (timeout : Nat) : Nat → DebounceState → List Nat → DebounceState
  | _, s, [] => s
  | t, s, g :: gaps => runGaps timeout (t + g) (triggerRegeneration timeout s (t + g)) gaps

/-- Total number of `Generate` invocations for a burst of events starting at
`t0` with the given gaps, once the burst has settled (a still-armed timer
fires once more and its waiting goroutine runs). -/
def debounceRun (timeout t0 : Nat) (gaps : List Nat) : Nat :=
  let s := runGaps timeout t0 (triggerRegeneration timeout ⟨none, 0⟩ t0) gaps
  match s.fireAt with
  | some _ => s.gens + 1
  | none => s.gens

/-- When every gap is strictly below the timeout, the timer is re-armed
before it can fire: the invocation count never grows during the burst. -/
theorem runGaps_all_lt (timeout : Nat) (gaps : List Nat)
    (h : ∀ g ∈ gaps, g < timeout) :
    ∀ t n, ∃ t', runGaps timeout t ⟨some (t + timeout), n⟩ gaps
      = ⟨some (t' + timeout), n⟩ := by
  induction gaps with
  | nil => exact fun t n => ⟨t, rfl⟩
  | cons g gaps ih =>
    intro t n
    have hg : g < timeout := h g (List.mem_cons_self g gaps)
    have hfire : ¬ t + timeout ≤ t + g := by omega
    simpa [runGaps, triggerRegeneration, fireCheck, hfire] using
      ih (fun g' hg' => h g' (List.mem_cons_of_mem g hg')) (t + g) n

/-- When every gap is strictly above the timeout, the timer fires between
every two consecutive events: each event past the first adds one
invocation. -/
theorem runGaps_all_gt (timeout : Nat) (gaps : List Nat)
    (h : ∀ g ∈ gaps, timeout < g) :
    ∀ t n, ∃ t', runGaps timeout t ⟨some (t + timeout), n⟩ gaps
      = ⟨some (t' + timeout), n + gaps.length⟩ := by
  induction gaps with
  | nil => exact fun t n => ⟨t, rfl⟩
  | cons g gaps ih =>
    intro t n
    have hg : timeout < g := h g (List.mem_cons_self g gaps)
    have hfire : t + timeout ≤ t + g := by omega
    obtain ⟨t', ht'⟩ := ih (fun g' hg' => h g' (List.mem_cons_of_mem g hg')) (t + g) (n + 1)
    refine ⟨t', ?_⟩
    have hstep : triggerRegeneration timeout ⟨some (t + timeout), n⟩ (t + g)
        = ⟨some (t + g + timeout), n + 1⟩ := by
      simp [triggerRegeneration, fireCheck, hfire]
    have hlen : n + 1 + gaps.length = n + (g :: gaps).length := by
      simp only [List.length_cons]
      omega
    simp only [runGaps]
    rw [hstep, ht', hlen]

/-! ## Watched-path bookkeeping (`handleRemove`, service.go lines 255-287)

The `watched` map is modelled as an association list with distinct keys
(Go map iteration order does not matter here: deletions commute). -/

/-- Lookup in the watched map (`watched, exists := s.watched[path]`). -/
def lookupWatched (watched : List (String × Bool)) (path : String) : Option Bool :=
  (watched.find? fun e => e.1 = path).map (·.2)

/-- Model of Go `strings.HasPrefix`. -/
def hasPrefixStr (pre s : String) : Bool :=
  pre.toList.isPrefixOf s.toList

/-- Embedding of `handleRemove`'s effect on the watched map (service.go lines
255-287): if the path is not watched, nothing changes; otherwise the entry is
deleted, and when it was a directory every entry whose path starts with
`path + "/"` is deleted too.  (The accompanying `watcher.Remove` calls and
the final `triggerRegeneration` are not part of this map effect.) -/
def handleRemove (watched : List (String × Bool)) (path : String) :
    List (String × Bool) :=
  match lookupWatched watched path with
  | none => watched
  | some isDir =>
    let w := watched.filter fun e => !(e.1 == path)
    if isDir then w.filter fun e => !hasPrefixStr (path ++ "/") e.1 else w

/-- A list is never a prefix of itself with one element appended. -/
theorem not_isPrefixOf_self_append (l : List Char) (c : Char) :
    (l ++ [c]).isPrefixOf l = false := by
  induction l with
  | nil => rfl
  | cons a l ih => simpa [List.isPrefixOf] using ih

/-- `path + "/"` is never a prefix of `path` itself. -/
theorem hasPrefixStr_append_slash_self (path : String) :
    hasPrefixStr (path ++ "/") path = false := by
  have hdata : (path ++ "/").toList = path.toList ++ ['/'] := rfl
  simp [hasPrefixStr, hdata, not_isPrefixOf_self_append]

/-- With distinct keys, looking up a present entry returns its value. -/
theorem lookupWatched_eq_some (watched : List (String × Bool)) (d : String)
    (hmem : (d, true) ∈ watched) (hnd : (watched.map Prod.fst).Nodup) :
    lookupWatched watched d = some true := by
  induction watched with
  | nil => cases hmem
  | cons e l ih =>
    by_cases he : e.1 = d
    · have : e = (d, true) := by
        rcases List.mem_cons.mp hmem with h | h
        · exact h.symm
        · exfalso
          have : d ∈ l.map Prod.fst := List.mem_map.mpr ⟨(d, true), h, rfl⟩
          have := (List.nodup_cons.mp hnd).1
          rw [he] at this
          exact this ‹d ∈ l.map Prod.fst›
      simp [lookupWatched, List.find?_cons, he, this]
    · have hmem' : (d, true) ∈ l := by
        rcases List.mem_cons.mp hmem with h | h
        · exact absurd (by rw [← h]) he
        · exact h
      have := ih hmem' (List.nodup_cons.mp hnd).2
      simpa [lookupWatched, List.find?_cons, he] using this

/-- Counting: in a list with distinct keys containing the entry `(d, true)`,
the entries whose key equals `d` or starts with `d + "/"` number exactly one
more than those whose key starts with `d + "/"`. -/
theorem length_filter_key_or_prefix (watched : List (String × Bool)) (d : String)
    (hmem : (d, true) ∈ watched) (hnd : (watched.map Prod.fst).Nodup) :
    (watched.filter fun e => e.1 == d || hasPrefixStr (d ++ "/") e.1).length
      = (watched.filter fun e => hasPrefixStr (d ++ "/") e.1).length + 1 := by
  induction watched with
  | nil => cases hmem
  | cons e l ih =>
    by_cases he : e.1 = d
    · have hq : hasPrefixStr (d ++ "/") e.1 = false := by
        rw [he]; exact hasPrefixStr_append_slash_self d
      have hkeys : ∀ a ∈ l, (a.1 == d) = false := by
        intro a ha
        have hd : d ∉ l.map Prod.fst := by
          have := (List.nodup_cons.mp hnd).1
          rwa [he] at this
        simp only [beq_eq_false_iff_ne, ne_eq]
        intro had
        exact hd (List.mem_map.mpr ⟨a, ha, had⟩)
      have hfilter : (l.filter fun a => a.1 == d || hasPrefixStr (d ++ "/") a.1)
          = l.filter fun a => hasPrefixStr (d ++ "/") a.1 := by
        apply List.filter_congr
        intro a ha
        simp [hkeys a ha]
      simp [List.filter_cons, he, hq, hfilter, hasPrefixStr_append_slash_self]
    · have hmem' : (d, true) ∈ l := by
        rcases List.mem_cons.mp hmem with h | h
        · exact absurd (by rw [← h]) he
        · exact h
      have := ih hmem' (List.nodup_cons.mp hnd).2
      by_cases hq : hasPrefixStr (d ++ "/") e.1 = true
      · simp [List.filter_cons, he, hq, this]
      · simp only [Bool.not_eq_true] at hq
        simp [List.filter_cons, he, hq, this]

/-! ## One-shot traversal (`Process`, the current processor, `part_005`
lines 146-212)

The walked tree carries the outcomes of the fallible filesystem operations
per node: for a directory, whether enumerating its entries fails (`WalkDir`
then calls the callback with a non-nil error) and the result of the ignore
lookup (`none` = the lookup's `Stat` fails, which `Process` propagates); for
a file, the ignore-lookup result used by `shouldProcessFile` and the file
content (`none` = the `Stat`/`Open`/`ReadAll` of `processFile` fails). -/

/-- Render a root-relative segment path the way `filepath.Rel` does: the
root is `"."`, other paths join their segments with `/`. -/
def render : List String → String
  | [] => "."
  | s :: rest => rest.foldl (fun acc x => acc ++ "/" ++ x) s

structure PFile where
  ignored : Option Bool
  content : Option String

inductive PTree where
  | file (name : String) (f : PFile)
  | dir (name : String) (readErr : Bool) (ignored : Option Bool) (children : List PTree)

def pNameOf : PTree → String
  | .file n _ => n
  | .dir n _ _ _ => n

/-- The parts of a `FileInfo` record this development tracks. -/
structure FileOut where
  path : String
  content : String
deriving DecidableEq

/-- Modelled from the spec: `utils.IsBinaryFile` (the `utils` package is not
in the dump) — "content sniff over a bounded prefix, e.g. first 512 bytes;
presence of a NUL byte ⇒ binary" (§4.3); an unreadable file is not reported
binary. -/
def isBinaryFileM (content : Option String) : Bool :=
  match content with
  | none => false
  | some c => (c.toList.take 512).any (· = Char.ofNat 0)

/-- Embedding of `processFile` (`part_005` lines 214-256): fails exactly when
the file's metadata or content cannot be read, otherwise yields the record.
(The `errSkipFile` sentinel concerns directory-typed entries, which the tree
model rules out.) -/
def processFileM (relPath : String) (f : PFile) : Except String FileOut :=
  match f.content with
  | none => .error "read failure"
  | some c => .ok ⟨relPath, c⟩

mutual
/-- Embedding of the `WalkDir` callback of `Process` (`part_005` lines
146-212) run over the subtree at relative path `p`: a `.git` directory or an
ignored or exclude-matched directory prunes its subtree; an ignore-lookup
error or an entry-enumeration error aborts the walk; a file is skipped
unless `shouldProcessFile` accepts it, in which case a `processFile` failure
aborts the walk and success appends the record. -/
def processWalk (cfg : ProcConfig) : PTree → List String → Except String (List FileOut)
  | .file _ f, p =>
    let rel := render p
    if !shouldProcessFile cfg (isBinaryFileM f.content) (some rel) (fun _ => f.ignored) then
      .ok []
    else
      match processFileM rel f with
      | .error e => .error e
      | .ok fi => .ok [fi]
  | .dir n readErr ignored children, p =>
    if n == ".git" then .ok []
    else
      match ignored with
      | none => .error "ignore lookup failed"
      | some true => .ok []
      | some false =>
        if cfg.excludePatterns.length > 0
            && MatchesAny (render p) cfg.excludePatterns cfg.caseSensitive then
          .ok []
        else if readErr then .error "directory read failed"
        else processWalkList cfg children p

def processWalkList (cfg : ProcConfig) : List PTree → List String → Except String (List FileOut)
  | [], _ => .ok []
  | c :: cs, p =>
    match processWalk cfg c (p ++ [pNameOf c]) with
    | .error e => .error e
    | .ok l =>
      match processWalkList cfg cs p with
      | .error e => .error e
      | .ok r => .ok (l ++ r)
end

/-- Embedding of `Process`'s return (`part_005` lines 205-211): on any walk
error the pair `(nil, err)` is returned — the accumulated records are
discarded — and otherwise the records with no error. -/
def ProcessResult (cfg : ProcConfig) (t : PTree) : List FileOut × Option String :=
  match processWalk cfg t [] with
  | .error e => ([], some e)
  | .ok l => (l, none)

mutual
/-- Whether the (pruned) walk over the subtree at `p` encounters any failing
read: a directory whose ignore lookup errors or whose entries cannot be
enumerated, or an accepted file whose content cannot be read.  Defined
without the abort-at-first-error short-circuit: it scans the whole visited
tree. -/
def hasFailure (cfg : ProcConfig) : PTree → List String → Bool
  | .file _ f, p =>
    shouldProcessFile cfg (isBinaryFileM f.content) (some (render p)) (fun _ => f.ignored)
      && f.content.isNone
  | .dir n readErr ignored children, p =>
    if n == ".git" then false
    else
      match ignored with
      | none => true
      | some true => false
      | some false =>
        if cfg.excludePatterns.length > 0
            && MatchesAny (render p) cfg.excludePatterns cfg.caseSensitive then
          false
        else readErr || hasFailureList cfg children p

def hasFailureList (cfg : ProcConfig) : List PTree → List String → Bool
  | [], _ => false
  | c :: cs, p => hasFailure cfg c (p ++ [pNameOf c]) || hasFailureList cfg cs p
end

mutual
/-- The walk succeeds exactly when no visited read fails. -/
theorem processWalk_isOk (cfg : ProcConfig) (t : PTree) (p : List String) :
    (processWalk cfg t p).isOk = !hasFailure cfg t p := by
  cases t with
  | file n f =>
    cases hc : f.content with
    | none =>
      by_cases hsp : shouldProcessFile cfg (isBinaryFileM none) (some (render p))
          (fun _ => f.ignored) = true
      · simp [processWalk, hasFailure, processFileM, hc, hsp, Except.isOk, Except.toBool]
      · have hsp' := Bool.eq_false_iff.mpr hsp
        simp [processWalk, hasFailure, processFileM, hc, hsp', Except.isOk, Except.toBool]
    | some c =>
      by_cases hsp : shouldProcessFile cfg (isBinaryFileM (some c)) (some (render p))
          (fun _ => f.ignored) = true
      · simp [processWalk, hasFailure, processFileM, hc, hsp, Except.isOk, Except.toBool]
      · have hsp' := Bool.eq_false_iff.mpr hsp
        simp [processWalk, hasFailure, processFileM, hc, hsp', Except.isOk, Except.toBool]
  | dir n readErr ignored children =>
    by_cases hgit : (n == ".git") = true
    · simp [processWalk, hasFailure, hgit, Except.isOk, Except.toBool]
    · have hgit' := Bool.eq_false_iff.mpr hgit
      cases hig : ignored with
      | none => simp [processWalk, hasFailure, hgit', Except.isOk, Except.toBool]
      | some b =>
        cases b with
        | true => simp [processWalk, hasFailure, hgit', Except.isOk, Except.toBool]
        | false =>
          by_cases hex : (cfg.excludePatterns.length > 0
              && MatchesAny (render p) cfg.excludePatterns cfg.caseSensitive) = true
          · simp [processWalk, hasFailure, hgit', hex, Except.isOk, Except.toBool]
          · have hex' := Bool.eq_false_iff.mpr hex
            cases readErr with
            | true => simp [processWalk, hasFailure, hgit', hex', Except.isOk, Except.toBool]
            | false =>
              simp only [processWalk, hasFailure, hgit', hex', Bool.false_eq_true,
                if_false, Bool.false_or]
              exact processWalkList_isOk cfg children p

theorem processWalkList_isOk (cfg : ProcConfig) (l : List PTree) (p : List String) :
    (processWalkList cfg l p).isOk = !hasFailureList cfg l p := by
  cases l with
  | nil => simp [processWalkList, hasFailureList, Except.isOk, Except.toBool]
  | cons c cs =>
    have h1 := processWalk_isOk cfg c (p ++ [pNameOf c])
    have h2 := processWalkList_isOk cfg cs p
    cases hw : processWalk cfg c (p ++ [pNameOf c]) with
    | error e =>
      rw [hw] at h1
      simp only [Except.isOk, Except.toBool] at h1
      simp [processWalkList, hasFailureList, hw, ← h1, Except.isOk, Except.toBool]
    | ok fl =>
      rw [hw] at h1
      simp only [Except.isOk, Except.toBool] at h1
      cases hrest : processWalkList cfg cs p with
      | error e =>
        rw [hrest] at h2
        simp only [Except.isOk, Except.toBool] at h2
        simp [processWalkList, hasFailureList, hw, hrest, ← h1, ← h2, Except.isOk,
          Except.toBool]
      | ok rl =>
        rw [hrest] at h2
        simp only [Except.isOk, Except.toBool] at h2
        simp [processWalkList, hasFailureList, hw, hrest, ← h1, ← h2, Except.isOk,
          Except.toBool]
end

/-! ## Watch-tree reconciliation (`reconfigureWatcher` / `addWatchRecursive`,
service.go lines 338-374)

The directory tree is modelled as a rose tree; paths are root-relative
segment lists (`[]` is the root, rendered as `"."`, matching what
`filepath.Rel(root, path)` yields for the walked paths).  Children are
listed in the lexical order `filepath.Walk` visits them in. -/

/-- Embedding of `shouldWatchDirectory` (service.go lines 409-440): the root
(`"."`) is always watched; an ignore-lookup error or an ignored directory is
rejected; with exclude patterns configured, a directory matching one is
rejected.  `isIgnored` is the `gitignorer.IsIgnored` oracle (`none` = error). -/
def shouldWatchDirectory (isIgnored : String → Option Bool)
    (excludePatterns : List String) (caseSensitive : Bool) (relPath : String) : Bool :=
  if relPath == "." then true
  else
    match isIgnored relPath with
    | none => false
    | some true => false
    | some false =>
      if excludePatterns.length > 0 then
        !MatchesAny relPath excludePatterns caseSensitive
      else true

inductive FsTree where
  | file (name : String)
  | dir (name : String) (children : List FsTree)

def nameOf : FsTree → String
  | .file n => n
  | .dir n _ => n

mutual
/-- Embedding of `addWatchRecursive`'s walk (service.go lines 351-374) as the
set of directory paths it registers: a `.git` directory or one rejected by
the directory policy `sw` prunes its whole subtree (`filepath.SkipDir`);
otherwise the directory is registered and its children walked. -/
def walkDirs (sw : String → Bool) : FsTree → List String → List (List String)
  | .file _, _ => []
  | .dir n children, p =>
    if n == ".git" then []
    else if !sw (render p) then []
    else p :: walkDirsList sw children p

def walkDirsList (sw : String → Bool) : List FsTree → List String → List (List String)
  | [], _ => []
  | c :: cs, p => walkDirs sw c (p ++ [nameOf c]) ++ walkDirsList sw cs p
end

/-- Embedding of `reconfigureWatcher` (service.go lines 338-349): the
previously watched set is cleared wholesale, then `addWatchRecursive` is run
from the root — so the result does not depend on the prior watched set. -/
def reconfigureWatcher (sw : String → Bool) (t : FsTree)
    (watched : List (List String)) : List (List String) :=
  walkDirs sw t []

mutual
/-- All directory paths of the tree, without any policy pruning. -/
def dirsOf : FsTree → List String → List (List String)
  | .file _, _ => []
  | .dir _ children, p => p :: dirsOfList children p

def dirsOfList : List FsTree → List String → List (List String)
  | [], _ => []
  | c :: cs, p => dirsOf c (p ++ [nameOf c]) ++ dirsOfList cs p
end

/-- All prefixes of a list, shortest first (both `[]` and the list itself
included). -/
def prefs : List α → List (List α)
  | [] => [[]]
  | a :: l => [] :: (prefs l).map (a :: ·)

/-- All nonempty prefixes of a list, shortest first. -/
def prefsNE : List α → List (List α)
  | [] => []
  | a :: l => [a] :: (prefsNE l).map (a :: ·)

/-- The per-directory policy check applied by the walk at path `r`: the
directory's basename (the root's name for `r = []`) is not `.git`, and the
directory policy accepts the rendered path. -/
def nodeCheck (sw : String → Bool) (rootName : String) (r : List String) : Bool :=
  (r.getLastD rootName != ".git") && sw (render r)

/-- Hereditary selection: a path is selected iff every prefix of it (the
root included) passes the per-directory check. -/
def chainOk (sw : String → Bool) (rootName : String) (q : List String) : Bool :=
  (prefs q).all (nodeCheck sw rootName)

/-- The policy-selected directory set, computed hereditarily: all directory
paths of the tree all of whose ancestors (and the path itself) pass the
per-directory check. -/
def specSelected (sw : String → Bool) (t : FsTree) : List (List String) :=
  (dirsOf t []).filter (chainOk sw (nameOf t))

/-- The directory set described literally by the claim's parenthetical: the
root plus every directory that itself passes the per-directory check,
regardless of its ancestors. -/
def naiveSelected (sw : String → Bool) (t : FsTree) : List (List String) :=
  (dirsOf t []).filter fun q => q.isEmpty || nodeCheck sw (nameOf t) q

theorem prefs_eq_nil_cons (l : List α) : prefs l = [] :: prefsNE l := by
  induction l with
  | nil => rfl
  | cons a l ih => simp [prefs, prefsNE, ih]

theorem prefs_snoc (l : List α) (a : α) :
    prefs (l ++ [a]) = prefs l ++ [l ++ [a]] := by
  induction l with
  | nil => rfl
  | cons b l ih => simp [prefs, ih]

theorem self_mem_prefs (l : List α) : l ∈ prefs l := by
  induction l with
  | nil => exact List.mem_singleton.mpr rfl
  | cons a l ih => exact List.mem_cons_of_mem _ (List.mem_map.mpr ⟨l, ih, rfl⟩)

theorem prefs_append (p s : List α) :
    prefs (p ++ s) = prefs p ++ (prefsNE s).map (p ++ ·) := by
  induction p with
  | nil => simpa [prefs] using prefs_eq_nil_cons s
  | cons a p ih =>
    show [] :: (prefs (p ++ s)).map (a :: ·)
        = ([] :: (prefs p).map (a :: ·)) ++ (prefsNE s).map ((a :: p) ++ ·)
    rw [ih, List.map_append, List.map_map]
    rfl

theorem mem_prefs_append (p s : List α) : p ∈ prefs (p ++ s) := by
  rw [prefs_append]
  exact List.mem_append_left _ (self_mem_prefs p)

theorem chainOk_false_of_mem (sw : String → Bool) (rn : String) (q r : List String)
    (hr : r ∈ prefs q) (hnc : nodeCheck sw rn r = false) :
    chainOk sw rn q = false := by
  rw [chainOk]
  by_contra h
  simp only [Bool.not_eq_false, List.all_eq_true] at h
  rw [h r hr] at hnc
  cases hnc

mutual
/-- Everything `dirsOf` lists below path `p` extends `p`. -/
theorem dirsOf_shape (t : FsTree) (p : List String) :
    ∀ q ∈ dirsOf t p, ∃ s, q = p ++ s := by
  cases t with
  | file n => intro q hq; cases hq
  | dir n ch =>
    intro q hq
    rcases List.mem_cons.mp hq with h | h
    · exact ⟨[], by simp [h]⟩
    · exact dirsOfList_shape ch p q h

theorem dirsOfList_shape (l : List FsTree) (p : List String) :
    ∀ q ∈ dirsOfList l p, ∃ s, q = p ++ s := by
  cases l with
  | nil => intro q hq; cases hq
  | cons c cs =>
    intro q hq
    rcases List.mem_append.mp hq with h | h
    · obtain ⟨s, hs⟩ := dirsOf_shape c (p ++ [nameOf c]) q h
      exact ⟨[nameOf c] ++ s, by simp [hs]⟩
    · exact dirsOfList_shape cs p q h
end

mutual
/-- The pruned walk below a reachable path `p` (all proper prefixes of `p`
pass the check, and `p`'s final segment is the current node's name) lists
exactly the unpruned directories whose whole prefix chain passes. -/
theorem walkDirs_eq_filter (sw : String → Bool) (rn : String) (t : FsTree)
    (p : List String) (hname : p.getLastD rn = nameOf t)
    (hctx : ∀ r ∈ prefs p, r ≠ p → nodeCheck sw rn r = true) :
    walkDirs sw t p = (dirsOf t p).filter (chainOk sw rn) := by
  cases t with
  | file n => simp [walkDirs, dirsOf]
  | dir n ch =>
    have hlast : p.getLastD rn = n := hname
    by_cases hnc : nodeCheck sw rn p = true
    · have hgit : (n == ".git") = false := by
        have := hnc
        rw [nodeCheck, hlast] at this
        rcases Bool.and_eq_true_iff.mp this with ⟨h1, _⟩
        simpa [bne] using h1
      have hsw : sw (render p) = true := by
        have := hnc
        rw [nodeCheck] at this
        exact (Bool.and_eq_true_iff.mp this).2
      have hfull : ∀ r ∈ prefs p, nodeCheck sw rn r = true := by
        intro r hr
        by_cases hrp : r = p
        · rw [hrp]; exact hnc
        · exact hctx r hr hrp
      have hck : chainOk sw rn p = true := by
        rw [chainOk]
        exact List.all_eq_true.mpr hfull
      simp only [walkDirs, dirsOf, hgit, hsw, Bool.not_true, if_false,
        Bool.false_eq_true, List.filter_cons, hck, if_pos]
      rw [walkDirsList_eq_filter sw rn ch p hfull]
    · have hnc' : nodeCheck sw rn p = false := Bool.eq_false_iff.mpr hnc
      have hempty : (dirsOf (FsTree.dir n ch) p).filter (chainOk sw rn) = [] := by
        apply List.filter_eq_nil_iff.mpr
        intro q hq
        obtain ⟨s, hs⟩ := dirsOf_shape (FsTree.dir n ch) p q hq
        have : p ∈ prefs q := hs ▸ mem_prefs_append p s
        simp [chainOk_false_of_mem sw rn q p this hnc']
      rw [hempty, walkDirs]
      by_cases hgit : (n == ".git") = true
      · simp [hgit]
      · have hsw : sw (render p) = false := by
          rw [nodeCheck, hlast] at hnc'
          rcases Bool.and_eq_false_iff.mp hnc' with h | h
          · exfalso
            simp only [bne, Bool.not_eq_false'] at h
            exact hgit h
          · exact h
        simp [hgit, hsw]

theorem walkDirsList_eq_filter (sw : String → Bool) (rn : String) (l : List FsTree)
    (p : List String) (hfull : ∀ r ∈ prefs p, nodeCheck sw rn r = true) :
    walkDirsList sw l p = (dirsOfList l p).filter (chainOk sw rn) := by
  cases l with
  | nil => simp [walkDirsList, dirsOfList]
  | cons c cs =>
    have hname : (p ++ [nameOf c]).getLastD rn = nameOf c := List.getLastD_concat _ _ _
    have hctx : ∀ r ∈ prefs (p ++ [nameOf c]), r ≠ p ++ [nameOf c] →
        nodeCheck sw rn r = true := by
      intro r hr hne
      rw [prefs_snoc] at hr
      rcases List.mem_append.mp hr with h | h
      · exact hfull r h
      · exact absurd (List.mem_singleton.mp h) hne
    rw [walkDirsList, dirsOfList, List.filter_append,
      walkDirs_eq_filter sw rn c (p ++ [nameOf c]) hname hctx,
      walkDirsList_eq_filter sw rn cs p hfull]
end

/-! ## Configuration reload (`handleConfigChange`, service.go lines 298-326)

The service state relevant to reload atomicity: the active configuration
(abstracted to an opaque tag), the watched map, the reload-suspension flag
and the tracked configuration-file path.  The fallible collaborators are
injected: `config.LoadConfig` either yields a new configuration or an error,
and `reconfigureWatcher` either yields the rebuilt watched map or fails
leaving whatever partial map its walk had built (it clears the map before
re-adding watches). -/

structure SvcState where
  repoConfig : Nat
  watched : List (String × Bool)
  reloading : Bool
  configPath : String
deriving DecidableEq

/-- Embedding of `handleConfigChange` (service.go lines 298-326).  Returns
the new state, the returned error, and whether `triggerRegeneration` was
reached.  Mirrors the source line by line: set `reloading`; reload the
config (returning on error); swap the config in; reconfigure the watcher
(returning on error, with the watched map left as the failed rebuild left
it); re-add the config-file watch when a config path is tracked (returning
on error); clear `reloading`; trigger. -/
def handleConfigChange (loadResult : Except String Nat)
    (reconfigResult : Except (List (String × Bool) × String) (List (String × Bool)))
    (addConfigWatchOk : Bool) (s : SvcState) : SvcState × Option String × Bool :=
  let s1 : SvcState := { s with reloading := true }
  match loadResult with
  | .error err => (s1, some err, false)
  | .ok newConfig =>
    let s2 := { s1 with repoConfig := newConfig }
    match reconfigResult with
    | .error (partialWatched, err) => ({ s2 with watched := partialWatched }, some err, false)
    | .ok rebuilt =>
      let s3 := { s2 with watched := rebuilt }
      if s3.configPath ≠ "" then
        if addConfigWatchOk then
          let s4 := { s3 with watched := s3.watched ++ [(s3.configPath, false)] }
          ({ s4 with reloading := false }, none, true)
        else (s3, some "failed to re-add config watch", false)
      else ({ s3 with reloading := false }, none, true)

/-! ## Event dispatch (`handleEvent`, service.go lines 193-236)

`fsnotify` operation bits, in declaration order of the library. -/

def opCreate : Nat := 1
def opWrite : Nat := 2
def opRemove : Nat := 4
def opRename : Nat := 8
def opChmod : Nat := 16

structure FsEvent where
  name : String
  op : Nat

/-- Embedding of `isTemporaryFile` (service.go lines 451-458): macOS and
Windows metadata files, hidden dotfiles, editor backup files ending in `~`,
and Emacs auto-save `#...#` names.  `filepath.Base` never returns an empty
string, so the Go index accesses are modelled with `head?`/`getLast?`. -/
def isTemporaryFile (path : String) : Bool :=
  let base := filepathBase path
  base == ".DS_Store" || base == "Thumbs.db"
    || base.toList.head? == some '.'
    || base.toList.getLast? == some '~'
    || (base.toList.head? == some '#' && base.toList.getLast? == some '#')

/-- The observable outcome of one `handleEvent` call: the resulting state,
the returned error, whether a configuration reload was started, and whether
the debounce timer was armed (`triggerRegeneration` reached). -/
structure EventOutcome where
  state : SvcState
  err : Option String
  reloaded : Bool
  triggered : Bool
deriving DecidableEq

/-- Embedding of `handleEvent` (service.go lines 193-236): drop temporary
files; on the tracked configuration file while not reloading, a Write starts
`handleConfigChange` and anything else is dropped; otherwise filter through
`shouldProcessFile` and dispatch on the operation bits in the order Create,
Remove, Write, Rename, Chmod.  Filesystem collaborators are injected:
`stat` is `os.Stat` (`none` = error, `some isDir` otherwise), and
`addRecResult` is the set of entries `addWatchRecursive` adds for a new
directory (`none` = error; the partially-added entries of a failed recursive
add are not modelled, no claim depends on them). -/
def handleEvent (loadResult : Except String Nat)
    (reconfigResult : Except (List (String × Bool) × String) (List (String × Bool)))
    (addConfigWatchOk : Bool)
    (stat : String → Option Bool)
    (shouldWatchDir : String → Bool)
    (addRecResult : String → Option (List (String × Bool)))
    (shouldProcess : String → Bool)
    (s : SvcState) (e : FsEvent) : EventOutcome :=
  if isTemporaryFile e.name then ⟨s, none, false, false⟩
  else if e.name == s.configPath && !s.reloading then
    if e.op &&& opWrite == opWrite then
      let r := handleConfigChange loadResult reconfigResult addConfigWatchOk s
      ⟨r.1, r.2.1, true, r.2.2⟩
    else ⟨s, none, false, false⟩
  else if !shouldProcess e.name then ⟨s, none, false, false⟩
  else if e.op &&& opCreate == opCreate then
    match stat e.name with
    | none => ⟨s, some "stat error", false, false⟩
    | some true =>
      if shouldWatchDir e.name then
        match addRecResult e.name with
        | none => ⟨s, some "watch add error", false, false⟩
        | some added => ⟨{ s with watched := s.watched ++ added }, none, false, true⟩
      else ⟨s, none, false, true⟩
    | some false => ⟨s, none, false, true⟩
  else if e.op &&& opRemove == opRemove then
    ⟨{ s with watched := handleRemove s.watched e.name }, none, false, true⟩
  else if e.op &&& opWrite == opWrite then ⟨s, none, false, true⟩
  else if e.op &&& opRename == opRename then
    ⟨{ s with watched := handleRemove s.watched e.name }, none, false, true⟩
  else if e.op &&& opChmod == opChmod then ⟨s, none, false, false⟩
  else ⟨s, none, false, false⟩

end Sink

/-! ## C1: behaviour of the matcher on an empty pattern list -/

/-- C1 counterexample: the claim says `MatchesAny` with an empty pattern list
returns `false` for every path and case flag, but the matcher of
`internal/filter/patterns.go` returns `true` on the concrete input
`("main.go", [], false)`. -/
theorem c1_counterexample :
    Sink.MatchesAny "main.go" [] false = true := by
  decide

/-- C1 (amended): for every path and case-sensitivity flag, the current
matcher (`internal/filter/patterns.go`) returns `true` for an empty pattern
list (no patterns means match everything), while the legacy matcher variant
bundled with `internal/generator/generator.go` returns `false`. -/
theorem c1_empty_patterns (path : String) (caseSensitive : Bool) :
    Sink.MatchesAny path [] caseSensitive = true ∧
      Sink.legacyMatchesAny path [] caseSensitive = false := by
  constructor
  · simp [Sink.MatchesAny]
  · simp [Sink.legacyMatchesAny]

/-! ## C2: order of the compiled ignore rule list -/

/-- C2 counterexample: with a local negation rule `!x` and a system rule `x`,
`NewFilter` (both load flags set) produces the list `[!x, x]`, not the
claimed system-first list `[x, !x]`; under last-match-wins evaluation the
path `x` is therefore ignored — the system rule overrides the local rule,
contradicting the claim that a local rule overrides a conflicting system
rule. -/
theorem c2_counterexample :
    Sink.NewFilterPatterns true true [⟨true, false, ["x"]⟩] [] [⟨false, false, ["x"]⟩]
        ≠ [⟨false, false, ["x"]⟩] ++ [] ++ [⟨true, false, ["x"]⟩] ∧
      Sink.isIgnoredBy
        (Sink.NewFilterPatterns true true
          [⟨true, false, ["x"]⟩] [] [⟨false, false, ["x"]⟩]) ["x"] false = true ∧
      Sink.isIgnoredBy
        ([⟨false, false, ["x"]⟩] ++ [] ++ [⟨true, false, ["x"]⟩]) ["x"] false = false := by
  refine ⟨by decide, by decide, by decide⟩

/-- C2 (amended): loading the ignore rule set with global and system rules
enabled produces a compiled rule list ordered local rules first, then global
rules, then system rules; since evaluation scans the list from the last rule
to the first (last-match-wins), a system rule takes precedence over a
conflicting global rule, and both take precedence over a conflicting local
rule for the same path. -/
theorem c2_rule_order (localRules globalRules systemRules : List Sink.IgnoreRule)
    (pathSegs : List String) (isDir : Bool) :
    Sink.NewFilterPatterns true true localRules globalRules systemRules
        = localRules ++ globalRules ++ systemRules ∧
      Sink.matchDecisive (localRules ++ globalRules ++ systemRules) pathSegs isDir
        = ((Sink.matchDecisive systemRules pathSegs isDir).orElse fun _ =>
            (Sink.matchDecisive globalRules pathSegs isDir).orElse fun _ =>
              Sink.matchDecisive localRules pathSegs isDir) := by
  constructor
  · simp [Sink.NewFilterPatterns]
  · simp only [Sink.matchDecisive, List.reverse_append, List.find?_append]
    cases (systemRules.reverse.find? fun r => Sink.ruleMatch r pathSegs isDir) with
    | none =>
      cases (globalRules.reverse.find? fun r => Sink.ruleMatch r pathSegs isDir) with
      | none => simp [Option.orElse]
      | some r => simp [Option.orElse]
    | some r => simp [Option.orElse]

/-! ## C3: the traverser's acceptance predicate -/

/-- C3: for every configuration and candidate path whose relative-path
computation and ignore lookup succeed, `shouldProcessFile` accepts the path
iff it is not binary, not ignored, the filter-pattern set is empty or some
filter pattern matches, and no exclude pattern matches. -/
theorem c3_shouldProcessFile_accept (cfg : Sink.ProcConfig) (isBinary : Bool)
    (relPath : String) (ignored : Bool) (isIgnored : String → Option Bool)
    (h : isIgnored relPath = some ignored) :
    Sink.shouldProcessFile cfg isBinary (some relPath) isIgnored
      = (!isBinary && !ignored
          && (cfg.filterPatterns.isEmpty
              || cfg.filterPatterns.any fun pat => Sink.matchOne relPath pat cfg.caseSensitive)
          && cfg.excludePatterns.all fun pat => !Sink.matchOne relPath pat cfg.caseSensitive) := by
  obtain ⟨F, X, cs⟩ := cfg
  cases isBinary with
  | true => simp [Sink.shouldProcessFile]
  | false =>
    cases ignored with
    | true => simp [Sink.shouldProcessFile, h]
    | false =>
      simp only [Sink.shouldProcessFile, h]
      cases F with
      | nil =>
        cases X with
        | nil => simp
        | cons x xs =>
          simp [Sink.MatchesAny_eq_any relPath (x :: xs) cs (by simp),
            Sink.not_any_eq_all_not]
      | cons f fs =>
        rw [Sink.MatchesAny_eq_any relPath (f :: fs) cs (by simp)]
        cases hany : (f :: fs).any fun pat => Sink.matchOne relPath pat cs with
        | false => simp [hany]
        | true =>
          cases X with
          | nil => simp [hany]
          | cons x xs =>
            simp [hany, Sink.MatchesAny_eq_any relPath (x :: xs) cs (by simp),
              Sink.not_any_eq_all_not]

/-- C3 witness: a concrete configuration (`filter = ["*.go"]`,
`exclude = ["b*"]`, case-insensitive) and path `a.go` with a successful,
negative ignore lookup; the predicate evaluates to `true` on both sides. -/
theorem c3_witness :
    (fun _ : String => (some false : Option Bool)) "a.go" = some false ∧
      Sink.shouldProcessFile ⟨["*.go"], ["b*"], false⟩ false (some "a.go")
          (fun _ => some false)
        = (!false && !false
            && ((["*.go"] : List String).isEmpty
                || (["*.go"] : List String).any fun pat => Sink.matchOne "a.go" pat false)
            && (["b*"] : List String).all fun pat => !Sink.matchOne "a.go" pat false) :=
  ⟨rfl, c3_shouldProcessFile_accept ⟨["*.go"], ["b*"], false⟩ false "a.go" false
    (fun _ => some false) rfl⟩

/-! ## C4: debounce coalescing -/

/-- C4: for a burst of `N = gaps.length + 1` qualifying events starting at
any time, if every consecutive gap is strictly less than the debounce
timeout, exactly one `Generate` invocation happens after the burst settles;
if every gap is strictly more than the timeout, exactly `N` invocations
happen. -/
theorem c4_debounce_coalescing (timeout t0 : Nat) (gaps : List Nat) :
    ((∀ g ∈ gaps, g < timeout) → Sink.debounceRun timeout t0 gaps = 1) ∧
      ((∀ g ∈ gaps, timeout < g) →
        Sink.debounceRun timeout t0 gaps = gaps.length + 1) := by
  have hinit : Sink.triggerRegeneration timeout ⟨none, 0⟩ t0
      = ⟨some (t0 + timeout), 0⟩ := rfl
  constructor
  · intro h
    obtain ⟨t', ht'⟩ := Sink.runGaps_all_lt timeout gaps h t0 0
    simp [Sink.debounceRun, hinit, ht']
  · intro h
    obtain ⟨t', ht'⟩ := Sink.runGaps_all_gt timeout gaps h t0 0
    simp [Sink.debounceRun, hinit, ht']

/-- C4 witness: with a timeout of 5 ticks, three events with gaps `[1, 1]`
(all below the timeout) yield one invocation, and three events with gaps
`[7, 7]` (all above the timeout) yield three invocations. -/
theorem c4_witness :
    Sink.debounceRun 5 0 [1, 1] = 1 ∧ Sink.debounceRun 5 0 [7, 7] = 3 :=
  ⟨(c4_debounce_coalescing 5 0 [1, 1]).1 (by decide),
   (c4_debounce_coalescing 5 0 [7, 7]).2 (by decide)⟩

/-! ## C5: subtree removal from the watched set -/

/-- C5: removing a watched directory `d` removes exactly the entries whose
path equals `d` or starts with `d + "/"` — leaving every other entry
unchanged — and the number of removed entries is `M + 1` where `M` is the
number of watched entries strictly below `d`. -/
theorem c5_handleRemove_subtree (watched : List (String × Bool)) (d : String)
    (hmem : (d, true) ∈ watched) (hnd : (watched.map Prod.fst).Nodup) :
    Sink.handleRemove watched d
        = watched.filter (fun e => !(e.1 == d || Sink.hasPrefixStr (d ++ "/") e.1)) ∧
      (watched.filter fun e => e.1 == d || Sink.hasPrefixStr (d ++ "/") e.1).length
        = (watched.filter fun e => Sink.hasPrefixStr (d ++ "/") e.1).length + 1 := by
  constructor
  · rw [Sink.handleRemove, Sink.lookupWatched_eq_some watched d hmem hnd]
    simp only [List.filter_filter]
    apply List.filter_congr
    intro e _
    cases he : e.1 == d <;> cases hq : Sink.hasPrefixStr (d ++ "/") e.1 <;> simp [he, hq]
  · exact Sink.length_filter_key_or_prefix watched d hmem hnd

/-- C5 witness: from the concrete watched set
`[r, r/a, r/a/b, r/ax]` (all directories), removing `r/a` removes exactly
`r/a` and `r/a/b` (M = 1 entry strictly below), leaving `r` and the
non-descendant sibling `r/ax` untouched. -/
theorem c5_witness :
    (("r/a", true) ∈ [("r", true), ("r/a", true), ("r/a/b", true), ("r/ax", true)]) ∧
      Sink.handleRemove [("r", true), ("r/a", true), ("r/a/b", true), ("r/ax", true)] "r/a"
        = [("r", true), ("r/a", true), ("r/a/b", true), ("r/ax", true)].filter
            (fun e => !(e.1 == "r/a" || Sink.hasPrefixStr ("r/a" ++ "/") e.1)) :=
  ⟨by decide,
   (c5_handleRemove_subtree [("r", true), ("r/a", true), ("r/a/b", true), ("r/ax", true)]
     "r/a" (by decide) (by decide)).1⟩

/-! ## C7: traversal failures abort the walk with no partial result -/

/-- C7: for every configuration and tree, `Process` returns an error exactly
when some visited read fails (a directory whose ignore lookup errors or
whose entries cannot be enumerated, or an accepted file whose content cannot
be read) — in particular it returns no error when no such read fails — and
whenever it returns an error the record list is `nil`, never a partial
list. -/
theorem c7_process_aborts_on_failure (cfg : Sink.ProcConfig) (t : Sink.PTree) :
    ((Sink.ProcessResult cfg t).2.isSome ↔ Sink.hasFailure cfg t [] = true) ∧
      ((Sink.ProcessResult cfg t).2.isSome → (Sink.ProcessResult cfg t).1 = []) := by
  have h := Sink.processWalk_isOk cfg t []
  cases hw : Sink.processWalk cfg t [] with
  | error e =>
    rw [hw] at h
    simp only [Except.isOk, Except.toBool] at h
    constructor
    · have hfail : Sink.hasFailure cfg t [] = true := by simpa using h.symm
      simp [Sink.ProcessResult, hw, hfail]
    · intro _
      simp [Sink.ProcessResult, hw]
  | ok l =>
    rw [hw] at h
    simp only [Except.isOk, Except.toBool] at h
    constructor
    · have hfail : Sink.hasFailure cfg t [] = false := by simpa using h.symm
      simp [Sink.ProcessResult, hw, hfail]
    · intro habs
      exfalso
      simp [Sink.ProcessResult, hw] at habs

/-- C7 witness: a root containing a single accepted file `a.go` whose content
read fails.  The walk has a failure, `Process` reports an error, and the
returned record list is empty. -/
theorem c7_witness :
    (Sink.ProcessResult ⟨[], [], false⟩
        (.dir "r" false (some false) [.file "a.go" ⟨some false, none⟩])).2.isSome = true ∧
      (Sink.ProcessResult ⟨[], [], false⟩
        (.dir "r" false (some false) [.file "a.go" ⟨some false, none⟩])).1 = [] :=
  ⟨by decide,
   (c7_process_aborts_on_failure ⟨[], [], false⟩
     (.dir "r" false (some false) [.file "a.go" ⟨some false, none⟩])).2 (by decide)⟩

/-! ## C6: reconcile idempotence and the watched-set characterisation -/

/-- C6 counterexample: with exclude patterns `["a"]` (no ignore rules) on the
tree `r/ { a/ { b/ } }`, the walk watches only the root: directory `a` is
excluded, so its subtree is pruned and `a/b` is never visited.  But `a/b`
itself is non-ignored, non-excluded (the pattern `a` does not match basename
`b`) and non-metadata, so the claim's "root plus every non-ignored,
non-excluded, non-metadata directory" set contains `a/b`; the two sets
differ. -/
theorem c6_counterexample :
    Sink.reconfigureWatcher
        (Sink.shouldWatchDirectory (fun _ => some false) ["a"] false)
        (.dir "r" [.dir "a" [.dir "b" []]]) [] = [[]] ∧
      Sink.naiveSelected
        (Sink.shouldWatchDirectory (fun _ => some false) ["a"] false)
        (.dir "r" [.dir "a" [.dir "b" []]]) = [[], ["a", "b"]] ∧
      (["a", "b"] ∈ Sink.naiveSelected
        (Sink.shouldWatchDirectory (fun _ => some false) ["a"] false)
        (.dir "r" [.dir "a" [.dir "b" []]])) ∧
      (["a", "b"] ∉ Sink.reconfigureWatcher
        (Sink.shouldWatchDirectory (fun _ => some false) ["a"] false)
        (.dir "r" [.dir "a" [.dir "b" []]]) []) := by
  refine ⟨by decide, by decide, by decide, by decide⟩

/-- C6 (amended): for every directory policy, tree and prior watched set,
running `reconfigureWatcher` twice yields the same watched set as running it
once (it clears the watched set and rebuilds it from the tree alone), and
that set equals the hereditarily policy-selected directory set: the
directories all of whose ancestors up to the root, and the directory itself,
are non-metadata (`.git`) and accepted by the directory policy — the root
itself always passing the policy by `shouldWatchDirectory`'s `"."` case. -/
theorem c6_reconcile_idempotent_and_policy (sw : String → Bool) (t : Sink.FsTree)
    (w : List (List String)) :
    Sink.reconfigureWatcher sw t (Sink.reconfigureWatcher sw t w)
        = Sink.reconfigureWatcher sw t w ∧
      Sink.reconfigureWatcher sw t w = Sink.specSelected sw t := by
  refine ⟨rfl, ?_⟩
  have hctx : ∀ r ∈ Sink.prefs ([] : List String), r ≠ [] →
      Sink.nodeCheck sw (Sink.nameOf t) r = true := by
    intro r hr hne
    exact absurd (List.mem_singleton.mp hr) hne
  exact Sink.walkDirs_eq_filter sw (Sink.nameOf t) t [] rfl hctx

/-! ## C8: a failed configuration reload is not atomic -/

/-- C8 (code bug, evaluated at the failing inputs): when `config.LoadConfig`
fails during `handleConfigChange`, the service is left with
`reloading = true` — the reload-suspension flag is not restored, so the
state differs from the pre-reload state; and when `reconfigureWatcher` fails
after a successful load, the *new* configuration is already active and the
watched map is whatever the failed rebuild left (here: empty), with
`reloading` still `true`.  Both outcomes contradict the claim that a failed
reload leaves the active config, the watched set and the suspension flag as
they were. -/
theorem c8_handleConfigChange_not_atomic :
    (Sink.handleConfigChange (.error "malformed config") (.ok [("/r", true)]) true
        ⟨0, [("/r", true)], false, "/r/sink-config.yaml"⟩).1
      = ⟨0, [("/r", true)], true, "/r/sink-config.yaml"⟩ ∧
    (⟨0, [("/r", true)], true, "/r/sink-config.yaml"⟩ : Sink.SvcState)
      ≠ ⟨0, [("/r", true)], false, "/r/sink-config.yaml"⟩ ∧
    (Sink.handleConfigChange (.ok 1) (.error ([], "walk failed")) true
        ⟨0, [("/r", true)], false, "/r/sink-config.yaml"⟩).1
      = ⟨1, [], true, "/r/sink-config.yaml"⟩ := by
  refine ⟨by decide, by decide, by decide⟩

/-! ## C9: PathParts -/

/-- C9 counterexample: `"."` is a clean relative path (`Clean(".") = "."`),
`PathParts "."` is the empty list, and joining the empty list with the
separator yields `""`, not `"."` — so the claimed split/join round trip over
"every clean relative path" fails at `"."`. -/
theorem c9_counterexample :
    Sink.clean "." = "." ∧ ("." : String).toList.head? ≠ some '/' ∧
      Sink.PathParts "." = [] ∧ Sink.joinParts (Sink.PathParts ".") = "" ∧
      ("" : String) ≠ "." :=
  ⟨by decide, by decide, by decide, by decide, by decide⟩

/-- C9 (amended): `PathParts p` is the ordered list of nonempty segments of
`Clean(p)`; every returned segment is nonempty and contains no separator;
`PathParts "."` and `PathParts "/"` are the empty list; and for every clean
relative path *other than `.`*, joining the returned segments with the
separator reproduces the path. -/
theorem c9_pathParts_spec (p : String) :
    Sink.PathParts p = Sink.cleanSegments p ∧
      (∀ s ∈ Sink.PathParts p, s ≠ "" ∧ '/' ∉ s.toList) ∧
      Sink.PathParts "." = [] ∧
      Sink.PathParts "/" = [] ∧
      (Sink.clean p = p → p.toList.head? ≠ some '/' → p ≠ "." →
        Sink.joinParts (Sink.PathParts p) = p) :=
  ⟨Sink.PathParts_eq_cleanSegments p, Sink.PathParts_segments p,
   Sink.PathParts_dot, Sink.PathParts_slash,
   fun hclean hrel hdot => Sink.pathParts_roundtrip p hclean hrel hdot⟩

/-- C9 witness: `"a/b"` is clean, relative and not `.`, and joining its
parts reproduces it. -/
theorem c9_witness :
    Sink.clean "a/b" = "a/b" ∧ ("a/b" : String).toList.head? ≠ some '/' ∧
      ("a/b" : String) ≠ "." ∧ Sink.joinParts (Sink.PathParts "a/b") = "a/b" :=
  ⟨by decide, by decide, by decide,
   (c9_pathParts_spec "a/b").2.2.2.2 (by decide) (by decide) (by decide)⟩

/-! ## C10: only a Write on the tracked configuration file starts a reload -/

/-- C10: for any event on the tracked configuration file while the service is
not mid-reload (and the file is not temporary-named, which the fixed basename
`sink-config.yaml` guarantees): an event without the Write bit is dropped
with the state unchanged, no error, no reload started and no debounce-timer
arm; and conversely a reload is started only when the Write bit is set. -/
theorem c10_config_write_only (loadResult : Except String Nat)
    (reconfigResult : Except (List (String × Bool) × String) (List (String × Bool)))
    (addConfigWatchOk : Bool) (stat : String → Option Bool)
    (shouldWatchDir : String → Bool)
    (addRecResult : String → Option (List (String × Bool)))
    (shouldProcess : String → Bool) (s : Sink.SvcState) (e : Sink.FsEvent)
    (hname : e.name = s.configPath)
    (hrel : s.reloading = false)
    (htmp : Sink.isTemporaryFile e.name = false) :
    (e.op &&& Sink.opWrite ≠ Sink.opWrite →
      Sink.handleEvent loadResult reconfigResult addConfigWatchOk stat shouldWatchDir
          addRecResult shouldProcess s e = ⟨s, none, false, false⟩) ∧
    ((Sink.handleEvent loadResult reconfigResult addConfigWatchOk stat shouldWatchDir
          addRecResult shouldProcess s e).reloaded = true →
      e.op &&& Sink.opWrite = Sink.opWrite) := by
  have hcfg : (e.name == s.configPath && !s.reloading) = true := by
    simp [hname, hrel]
  constructor
  · intro hw
    simp [Sink.handleEvent, htmp, hcfg, hw]
  · intro hrld
    by_cases hw : e.op &&& Sink.opWrite = Sink.opWrite
    · exact hw
    · exfalso
      simp [Sink.handleEvent, htmp, hcfg, hw] at hrld

/-- C10 witness: a Chmod event on the tracked configuration file
`/r/sink-config.yaml`, with the service idle, is dropped with no state
change, no reload and no trigger. -/
theorem c10_witness :
    ((⟨"/r/sink-config.yaml", Sink.opChmod⟩ : Sink.FsEvent).name
        = (⟨0, [("/r", true)], false, "/r/sink-config.yaml"⟩ : Sink.SvcState).configPath) ∧
      Sink.handleEvent (.ok 1) (.ok []) true (fun _ => some false) (fun _ => true)
          (fun _ => some []) (fun _ => true)
          ⟨0, [("/r", true)], false, "/r/sink-config.yaml"⟩
          ⟨"/r/sink-config.yaml", Sink.opChmod⟩
        = ⟨⟨0, [("/r", true)], false, "/r/sink-config.yaml"⟩, none, false, false⟩ :=
  ⟨rfl,
   (c10_config_write_only (.ok 1) (.ok []) true (fun _ => some false) (fun _ => true)
     (fun _ => some []) (fun _ => true)
     ⟨0, [("/r", true)], false, "/r/sink-config.yaml"⟩
     ⟨"/r/sink-config.yaml", Sink.opChmod⟩ rfl rfl (by decide)).1 (by decide)⟩
